import Mathlib

/-!
Shallow embedding of the reply-decoding logic of
`pymeasure/instruments/ar/fp4036.py` and of the placeholder filename
validator of `pymeasure/display/widgets/filename_widget.py`.

Python strings are modelled as `List Char`; the logging side channel of the
driver functions is modelled as an explicit `List String` of emitted log
messages; Python exceptions (`KeyError` from dict lookups, `ValueError` from
`float`/`int` conversions and explicit raises) are modelled with `Except`.
-/

/-- Decidable equality for `Except`, used to evaluate decoder outcomes. -/
instance exceptDecEq {ε α : Type} [DecidableEq ε] [DecidableEq α] :
    DecidableEq (Except ε α) := fun x y =>
  match x, y with
  | Except.ok a, Except.ok b =>
    if h : a = b then isTrue (by rw [h]) else isFalse (by simp [h])
  | Except.error a, Except.error b =>
    if h : a = b then isTrue (by rw [h]) else isFalse (by simp [h])
  | Except.ok _, Except.error _ => isFalse (by simp)
  | Except.error _, Except.ok _ => isFalse (by simp)

namespace FP4036

/-- Python exceptions raised by the decoder: dictionary lookup failure
(`KeyError`) and conversion/explicit failure (`ValueError`). -/
inductive PyExc where
  | keyError : PyExc
  | valueError : PyExc
deriving DecidableEq

/-- The per-condition log messages of the `reply == ":E0x"` / `reply == ""`
chain in `check_get_errors` (fp4036.py lines 46-59). `none` means the chain
falls through to the `else` branch. -/
def protocolError (reply : List Char) : Option String :=
  if reply = (":E01").toList then some "comunication error"
  else if reply = (":E02").toList then some "Buffer overflow"
  else if reply = (":E03").toList then some "Invalid command"
  else if reply = (":E04").toList then some "Invalid parameter"
  else if reply = (":E05").toList then some "Hardware error"
  else if reply = (":E06").toList then some "Parity error"
  else if reply = [] then some "No reply"
  else none

/-- The three length-18 status log messages of `check_get_errors`
(fp4036.py lines 39-44). -/
def statusLogs (reply : List Char) : List String :=
  (if reply.length = 18 ∧ reply.getD 13 ' ' = 'O' then ["Overrange"] else []) ++
  (if reply.length = 18 ∧ reply.getD 14 ' ' = 'W' then ["Low battery"] else []) ++
  (if reply.length = 18 ∧ reply.getD 15 ' ' = 'F' then ["Battery failure"] else [])

/-- `check_get_errors` (fp4036.py lines 37-62): emits the status and protocol
log messages; returns the reply unchanged on the error branch and the reply
with the first two characters stripped otherwise. -/
def check_get_errors (reply : List Char) : List String × List Char :=
  match protocolError reply with
  | some msg => (statusLogs reply ++ [msg], reply)
  | none => (statusLogs reply, reply.drop 2)

/-- The unit-code dictionary of fp4036.py lines 109 and 113. -/
def unit_map (code : List Char) : Option String :=
  if code = (" V ").toList then some "V/m"
  else if code = ("MW2").toList then some "mW/cm^2"
  else if code = ("KV2").toList then some "(V/m)^2"
  else none

/-- The battery-code dictionary of fp4036.py line 117. -/
def battery_map (c : Char) : Option String :=
  if c = 'N' then some "Safe"
  else if c = 'W' then some "Low"
  else if c = 'F' then some "Fail"
  else none

/-- The axis-letter assembly of fp4036.py lines 71-75 and 119-123: emit the
letters X, Y, Z exactly for positions 13, 14, 15 holding the byte `E`. -/
def axisLetters (v : List Char) : List Char :=
  (if v.getD 13 ' ' = 'E' then ['X'] else []) ++
  (if v.getD 14 ' ' = 'E' then ['Y'] else []) ++
  (if v.getD 15 ' ' = 'E' then ['Z'] else [])

/-- `bool(re.search(letter, axis, re.IGNORECASE))` for a single letter. -/
def searchLetter (l : List Char) (a b : Char) : Bool :=
  l.any (fun c => c = a || c = b)

/-- `process_axis` (fp4036.py lines 65-85). Inputs of length at most 3 are
encoded to the wire's E/D triple; longer inputs are passed through
`check_get_errors` and, when the stripped result has length 16, decoded to
axis letters; otherwise `ValueError` is raised. -/
def process_axis (axis : List Char) : List String × Except PyExc (List Char) :=
  if 3 < axis.length then
    let p := check_get_errors axis
    if p.2.length = 16 then (p.1, Except.ok (axisLetters p.2))
    else (p.1, Except.error PyExc.valueError)
  else
    let x := searchLetter axis 'x' 'X'
    let y := searchLetter axis 'y' 'Y'
    let z := searchLetter axis 'z' 'Z'
    ([], Except.ok [(if x then 'E' else 'D'), (if y then 'E' else 'D'),
      (if z then 'E' else 'D')])

/-- Python whitespace stripped by `float()`/`int()`. -/
def pySpace (c : Char) : Bool :=
  c = ' ' || c = '\t' || c = '\n' || c = '\r' || c = '\x0b' || c = '\x0c'

/-- Strip whitespace from both ends. -/
def pyStrip (l : List Char) : List Char :=
  ((l.dropWhile pySpace).reverse.dropWhile pySpace).reverse

def isDigitCh (c : Char) : Bool := '0' ≤ c && c ≤ '9'

/-- Numeric value of a digit run. -/
def digitsVal (l : List Char) : Nat :=
  l.foldl (fun a c => 10 * a + (c.toNat - 48)) 0

/-- Optional leading sign. -/
def parseSign (l : List Char) : Int × List Char :=
  match l with
  | c :: r => if c = '+' then (1, r) else if c = '-' then (-1, r) else (1, l)
  | [] => (1, [])

/-- Mantissa of a Python float literal: digits with an optional fractional
part, at least one digit present. Returns the value and the rest. -/
def parseMantissa (l : List Char) : Option (Rat × List Char) :=
  let ip := l.takeWhile isDigitCh
  match l.dropWhile isDigitCh with
  | '.' :: r2 =>
    let fp := r2.takeWhile isDigitCh
    if ip.isEmpty && fp.isEmpty then none
    else some ((digitsVal ip : Rat) + (digitsVal fp : Rat) / ((10 : Rat) ^ fp.length),
      r2.dropWhile isDigitCh)
  | r1 => if ip.isEmpty then none else some ((digitsVal ip : Rat), r1)

/-- Optional exponent part `e`/`E` sign digits; if the marker is present the
digits are mandatory. -/
def parseExponent (l : List Char) : Option (Int × List Char) :=
  match l with
  | c :: rest =>
    if c = 'e' || c = 'E' then
      let s := parseSign rest
      let ds := s.2.takeWhile isDigitCh
      if ds.isEmpty then none
      else some (s.1 * (digitsVal ds : Int), s.2.dropWhile isDigitCh)
    else some (0, l)
  | [] => some (0, [])

/-- Model of Python `float(s)` on the decimal literal forms: strip
whitespace, optional sign, mantissa, optional exponent, nothing left over.
Returns `none` exactly when `float` raises `ValueError`. -/
def pyFloat (s : List Char) : Option Rat :=
  let t := pyStrip s
  if t.isEmpty then none
  else
    let sg := parseSign t
    match parseMantissa sg.2 with
    | none => none
    | some mr =>
      match parseExponent mr.2 with
      | none => none
      | some er =>
        if er.2.isEmpty then some ((sg.1 : Rat) * mr.1 * (10 : Rat) ^ er.1)
        else none

/-- Model of Python `int(s)`: strip whitespace, optional sign, a nonempty
digit run. Returns `none` exactly when `int` raises `ValueError`. -/
def pyInt (s : List Char) : Option Int :=
  let t := pyStrip s
  let sg := parseSign t
  if sg.2.isEmpty then none
  else if sg.2.all isDigitCh then some (sg.1 * (digitsVal sg.2 : Int))
  else none

/-- The dictionary built by the length-16 branch of `proccess_data`
(fp4036.py lines 125-132). -/
structure LongRecord where
  field : Rat
  unit : String
  recorder : Int
  overrange : Bool
  battery : String
  axis : List Char
deriving DecidableEq

/-- Possible return values of `proccess_data`: the bare string of the
`len(value) < 8` branch, the short-form dictionary, the long-form
dictionary, or Python's implicit `None` fall-through. -/
inductive ProcResult where
  | str : List Char → ProcResult
  | shortRec : List Char → String → ProcResult
  | longRec : LongRecord → ProcResult
  | pyNone : ProcResult
deriving DecidableEq

/-- Whether a decode outcome is a parsed record (short or long form). -/
def isRecord : Except PyExc ProcResult → Bool
  | Except.ok (ProcResult.shortRec _ _) => true
  | Except.ok (ProcResult.longRec _) => true
  | _ => false

/-- `proccess_data` (fp4036.py lines 102-132): runs `check_get_errors`,
strips two further characters, then branches on the resulting length.
Exceptions are raised in source order: the unit lookup (line 113), the
battery lookup (line 117), `float(value)` (line 126), `int(recorder)`
(line 128). -/
def proccess_data (response : List Char) : List String × Except PyExc ProcResult :=
  let p := check_get_errors response
  let value := p.2.drop 2
  (p.1,
    if value.length < 8 then Except.ok (ProcResult.str value)
    else if value.length = 8 then
      match unit_map ((value.drop 5).take 3) with
      | none => Except.error PyExc.keyError
      | some u => Except.ok (ProcResult.shortRec (value.take 5) u)
    else if value.length = 16 then
      match unit_map ((value.drop 5).take 3) with
      | none => Except.error PyExc.keyError
      | some u =>
        match battery_map (value.getD 12 ' ') with
        | none => Except.error PyExc.keyError
        | some b =>
          match pyFloat value with
          | none => Except.error PyExc.valueError
          | some f =>
            match pyInt ((value.drop 8).take 3) with
            | none => Except.error PyExc.valueError
            | some n =>
              Except.ok (ProcResult.longRec
                ⟨f, u, n, value.getD 11 ' ' == 'O', b, axisLetters value⟩)
    else Except.ok ProcResult.pyNone)

end FP4036

namespace FilenameWidget

/-- Characters ending the name group of a placeholder: braces and colon. -/
def nameStop (c : Char) : Bool := c = '{' || c = '}' || c = ':'

def isBrace (c : Char) : Bool := c = '{' || c = '}'

/-- No brace occurs in the list. -/
def noBraces (l : List Char) : Bool := l.all (fun c => !(isBrace c))

/-- Last stage of a complete-placeholder match: after the name (and an
optional colon-led spec `spec`), the remainder `r` must begin with a closing
brace; `r3` is what follows the match. -/
def matchSpec (name spec r : List Char) : Option ((List Char × List Char) × List Char) :=
  match r with
  | [] => none
  | e :: r3 => if e = '}' then some ((name, ':' :: spec), r3) else none

/-- Middle stage of a complete-placeholder match: `r1` is the input after
the greedy name run; it must continue with either the closing brace or a
colon-led format spec run followed by the closing brace. -/
def matchDelim (name r1 : List Char) : Option ((List Char × List Char) × List Char) :=
  match r1 with
  | [] => none
  | d :: r2 =>
    if d = '}' then some ((name, []), r2)
    else if d = ':' then
      matchSpec name (r2.takeWhile (fun c => !(isBrace c)))
        (r2.dropWhile (fun c => !(isBrace c)))
    else none

/-- Match after the opening brace: split off the greedy name run. -/
def matchTail (rest : List Char) : Option ((List Char × List Char) × List Char) :=
  matchDelim (rest.takeWhile (fun c => !(nameStop c)))
    (rest.dropWhile (fun c => !(nameStop c)))

/-- Matching the `full_placeholder` pattern of filename_widget.py line 89 at
the head of the string: an opening brace, a name with no brace or colon, an
optional colon-led format spec with no brace, a closing brace. Returns the
two capture groups (the second including its leading colon, as Python
`findall` reports it) and the remainder of the string after the match. -/
def tryFullMatch (s : List Char) : Option ((List Char × List Char) × List Char) :=
  match s with
  | [] => none
  | c :: rest => if c = '{' then matchTail rest else none

/-- The replacement string for complete placeholders (line 108). -/
def repFull : List Char := ("_plchldr_").toList

/-- The replacement string for a trailing half placeholder (line 109). -/
def repHalf : List Char := ("_plchldr").toList

/-- Fuelled form of the complete-placeholder substitution scan (the fuel is
only a structural-recursion device; `fullSub` supplies enough of it). -/
def fullSubF : Nat → List Char → List Char
  | 0, _ => []
  | _ + 1, [] => []
  | fuel + 1, c :: rest =>
    match tryFullMatch (c :: rest) with
    | some (_, rem) => repFull ++ fullSubF fuel rem
    | none => c :: fullSubF fuel rest

/-- `self.full_placeholder.sub("_plchldr_", …)`: replace every
non-overlapping complete-placeholder match, scanning left to right. -/
def fullSub (s : List Char) : List Char := fullSubF s.length s

/-- Fuelled form of the complete-placeholder `findall` scan. -/
def fullFindAllF : Nat → List Char → List (List Char × List Char)
  | 0, _ => []
  | _ + 1, [] => []
  | fuel + 1, c :: rest =>
    match tryFullMatch (c :: rest) with
    | some (g, rem) => g :: fullFindAllF fuel rem
    | none => fullFindAllF fuel rest

/-- `self.full_placeholder.findall(…)`: the capture-group pairs of all
non-overlapping complete-placeholder matches, left to right. -/
def fullFindAll (s : List Char) : List (List Char × List Char) :=
  fullFindAllF s.length s

/-- `self.half_placeholder.sub("_plchldr", …)`: the `half_placeholder`
pattern (line 90) is anchored at the end of the string, so it matches from
the leftmost opening brace whose tail contains no brace, through the end;
that region is replaced. -/
def halfSub : List Char → List Char
  | [] => []
  | c :: rest =>
    if c = '{' && noBraces rest then repHalf
    else c :: halfSub rest

/-- `self.half_placeholder.findall(input)` is nonempty: the input ends in an
unterminated placeholder token. -/
def hasHalf : List Char → Bool
  | [] => false
  | c :: rest => (c = '{' && noBraces rest) || hasHalf rest

/-- The character class of the `valid_filename` pattern (line 91). -/
def forbiddenChar (c : Char) : Bool :=
  c = '<' || c = '>' || c = ':' || c = '"' || c = '/' || c = '\\' || c = '|' ||
    c = '?' || c = '*' || c = '{' || c = '}'

/-- `self.valid_filename.fullmatch(…)` succeeds: no forbidden character. -/
def valid_filename (l : List Char) : Bool := l.all (fun c => !(forbiddenChar c))

/-- The three Qt validator states. -/
inductive QState where
  | Invalid : QState
  | Intermediate : QState
  | Acceptable : QState
deriving DecidableEq

/-- The state computation of `FilenameValidator.validate`
(filename_widget.py lines 102-119). -/
def validateState (input : List Char) : QState :=
  let test := halfSub (fullSub input)
  if valid_filename test = false then QState.Invalid
  else if hasHalf input then QState.Intermediate
  else QState.Acceptable

/-- The outcome of `FilenameValidator.validate`: the state, the returned
input string and cursor position (line 152), and the warning surfaced through
the widget action's tooltip: `none` when the action is removed (lines
144-150), otherwise the `incorrect_placeholders` list (line 122) whose names
the tooltip reports (line 141). -/
structure ValidateResult where
  state : QState
  output : List Char
  outPos : Nat
  warning : Option (List (List Char × List Char))
deriving DecidableEq

/-- `FilenameValidator.validate` (filename_widget.py lines 102-152). -/
def validate (placeholders : List (List Char)) (input : List Char) (pos : Nat) :
    ValidateResult :=
  let full_placeholders := fullFindAll input
  let incorrect := full_placeholders.filter (fun p => !(placeholders.contains p.1))
  { state := validateState input
    output := input
    outPos := pos
    warning := if incorrect.isEmpty then none else some incorrect }

/-- `FilenameValidator.fixup` (filename_widget.py lines 94-100). -/
def fixup (input : List Char) : List Char :=
  if hasHalf input then input ++ ['}'] else input

/-- The names the warning tooltip reports: the first capture group of each
incorrect placeholder (filename_widget.py line 141). -/
def warnedNames (r : ValidateResult) : List (List Char) :=
  match r.warning with
  | none => []
  | some l => l.map Prod.fst

/-- Fuelled form of the scan keeping exactly the input characters lying
outside every complete-placeholder match. -/
def fullOutsideF : Nat → List Char → List Char
  | 0, _ => []
  | _ + 1, [] => []
  | fuel + 1, c :: rest =>
    match tryFullMatch (c :: rest) with
    | some (_, rem) => fullOutsideF fuel rem
    | none => c :: fullOutsideF fuel rest

/-- The input characters lying outside every complete-placeholder match of
the left-to-right scan: the same scan as the substitution, with matches
replaced by nothing instead of by the marker. -/
def fullOutside (s : List Char) : List Char := fullOutsideF s.length s

/-- Remove the trailing-half-token region (the leftmost opening brace whose
tail is brace-free, through the end): the same scan as the half-token
substitution with the match replaced by nothing. `cutHalf (fullOutside s)`
is therefore the list of characters of `s` lying outside every placeholder
token, complete or half. -/
def cutHalf : List Char → List Char
  | [] => []
  | c :: rest =>
    if c = '{' && noBraces rest then []
    else c :: cutHalf rest

end FilenameWidget

namespace FP4036

theorem protocolError_none {s : List Char} (h : 4 < s.length) :
    protocolError s = none := by
  rw [protocolError]
  split_ifs with h1 h2 h3 h4 h5 h6 h7 <;>
    first
      | rfl
      | (subst ‹s = _›; exact absurd h (by decide))

theorem protocolError_some_length {s : List Char} {m : String}
    (h : protocolError s = some m) : s.length ≤ 4 := by
  rw [protocolError] at h
  split_ifs at h with h1 h2 h3 h4 h5 h6 h7 <;> (subst ‹s = _›; decide)

/-- Claim C1: each reserved error reply (and the empty reply) makes the
decoder emit exactly the log message naming that condition, and the decode
result is the bare remainder string, never a parsed record. -/
theorem error_replies_named_and_no_record :
    ((proccess_data ((":E01").toList)).1 = ["comunication error"] ∧
      isRecord (proccess_data ((":E01").toList)).2 = false) ∧
    ((proccess_data ((":E02").toList)).1 = ["Buffer overflow"] ∧
      isRecord (proccess_data ((":E02").toList)).2 = false) ∧
    ((proccess_data ((":E03").toList)).1 = ["Invalid command"] ∧
      isRecord (proccess_data ((":E03").toList)).2 = false) ∧
    ((proccess_data ((":E04").toList)).1 = ["Invalid parameter"] ∧
      isRecord (proccess_data ((":E04").toList)).2 = false) ∧
    ((proccess_data ((":E05").toList)).1 = ["Hardware error"] ∧
      isRecord (proccess_data ((":E05").toList)).2 = false) ∧
    ((proccess_data ((":E06").toList)).1 = ["Parity error"] ∧
      isRecord (proccess_data ((":E06").toList)).2 = false) ∧
    ((proccess_data (("").toList)).1 = ["No reply"] ∧
      isRecord (proccess_data (("").toList)).2 = false) := by
  decide

/-- Claim C2: a non-error raw reply made of a 2-character echo prefix and an
8-character body does NOT decode to a record: `check_get_errors` already
strips the 2-character echo and `proccess_data` strips 2 further characters,
so the raw reply `"AB123.4 V "` yields the bare string `"3.4 V "`; a record
is produced only when 4 characters precede the 8-character body. -/
theorem short_reply_double_strip :
    proccess_data (("AB123.4 V ").toList) =
      ([], Except.ok (ProcResult.str (("3.4 V ").toList))) ∧
    isRecord (proccess_data (("AB123.4 V ").toList)).2 = false ∧
    proccess_data (("AB12123.4 V ").toList) =
      ([], Except.ok (ProcResult.shortRec (("123.4").toList) "V/m")) := by
  decide

/-- Claim C3: on a well-formed 16-character long-form payload the decoder
raises `ValueError`, because line 126 of fp4036.py converts the whole
16-character payload with `float` (the 5-character `field` slice computed on
line 112 is left unused), and the payload contains the unit code letters. -/
theorem long_form_float_conversion_fails :
    proccess_data (("ABCD123.4 V 001ONEDE").toList) =
      ([], Except.error PyExc.valueError) ∧
    pyFloat (("123.4 V 001ONEDE").toList) = none := by
  decide

/-- Claim C5 counterexample: a non-error reply whose payload `"hello"` has
length 5 (neither 8 nor 16) does not fail with a decode error: the decoder
returns the bare payload string successfully. -/
theorem short_payload_returns_string_not_error :
    proccess_data (("ABCDhello").toList) =
      ([], Except.ok (ProcResult.str (("hello").toList))) ∧
    (proccess_data (("ABCDhello").toList)).2 ≠ Except.error PyExc.keyError ∧
    (proccess_data (("ABCDhello").toList)).2 ≠ Except.error PyExc.valueError := by
  decide

/-- Claim C5 (amended): when the stripped payload length is neither 8 nor
16 the decoder raises nothing: it returns the bare payload string when the
length is below 8 and Python's implicit `None` otherwise; in particular no
(partial or complete) record is ever produced for such lengths. -/
theorem off_length_payload_no_record (response : List Char)
    (h8 : ((check_get_errors response).2.drop 2).length ≠ 8)
    (h16 : ((check_get_errors response).2.drop 2).length ≠ 16) :
    (proccess_data response).2 =
      (if ((check_get_errors response).2.drop 2).length < 8
        then Except.ok (ProcResult.str ((check_get_errors response).2.drop 2))
        else Except.ok ProcResult.pyNone) ∧
    isRecord (proccess_data response).2 = false := by
  simp only [proccess_data]
  split_ifs with h1 <;> exact ⟨rfl, rfl⟩

theorem off_length_payload_no_record_witness :
    (((check_get_errors (("ABCDhello").toList)).2.drop 2).length ≠ 8 ∧
      ((check_get_errors (("ABCDhello").toList)).2.drop 2).length ≠ 16) ∧
    (proccess_data (("ABCDhello").toList)).2 =
      Except.ok (ProcResult.str (("hello").toList)) ∧
    isRecord (proccess_data (("ABCDhello").toList)).2 = false := by
  have h := off_length_payload_no_record (("ABCDhello").toList)
    (by decide) (by decide)
  refine ⟨⟨by decide, by decide⟩, ?_, h.2⟩
  rw [h.1]
  decide

/-- Claim C6 counterexample: a literal 16-character long-form reply makes
`process_axis` raise `ValueError` instead of extracting the axis sub-field
at offsets 13-15 (which would be `"XZ"` here): the error check strips two
echo characters first, leaving length 14. -/
theorem process_axis_len16_raises :
    process_axis (("123.4 V 001ONEDE").toList) =
      ([], Except.error PyExc.valueError) ∧
    (process_axis (("123.4 V 001ONEDE").toList)).2 ≠
      Except.ok (("XZ").toList) := by
  decide

/-- Claim C6 (amended): `process_axis` encodes every input of length at most
3 to the fixed-order E/D wire triple; it decodes the axis sub-field (at
offsets 13-15 of the stripped reply) only from raw replies of length 18 (a
2-character echo before the 16-character body); every other length above 3
raises `ValueError`. -/
theorem process_axis_length_classification (s : List Char) :
    (s.length ≤ 3 → process_axis s = ([], Except.ok
      [(if searchLetter s 'x' 'X' then 'E' else 'D'),
        (if searchLetter s 'y' 'Y' then 'E' else 'D'),
        (if searchLetter s 'z' 'Z' then 'E' else 'D')])) ∧
    (s.length = 18 → (process_axis s).2 = Except.ok (axisLetters (s.drop 2))) ∧
    (3 < s.length → s.length ≠ 18 →
      (process_axis s).2 = Except.error PyExc.valueError) := by
  refine ⟨?_, ?_, ?_⟩
  · intro h
    rw [process_axis, if_neg (by omega)]
  · intro h
    have hpe : protocolError s = none := protocolError_none (by omega)
    rw [process_axis, if_pos (by omega)]
    simp only [check_get_errors, hpe]
    rw [if_pos (by simp [List.length_drop, h])]
  · intro h3 h18
    rw [process_axis, if_pos h3]
    cases hpe : protocolError s with
    | some m =>
      have hlen := protocolError_some_length hpe
      simp only [check_get_errors, hpe]
      rw [if_neg (by omega)]
    | none =>
      simp only [check_get_errors, hpe]
      rw [if_neg (by simp only [List.length_drop]; omega)]

theorem process_axis_length_classification_witness :
    process_axis (("xz").toList) = ([], Except.ok (("EDE").toList)) ∧
    (process_axis (("AB123.4 V 001-NEDE").toList)).2 =
      Except.ok (("XZ").toList) ∧
    (process_axis ((":E01").toList)).2 = Except.error PyExc.valueError := by
  refine ⟨?_, ?_, ?_⟩
  · rw [(process_axis_length_classification (("xz").toList)).1 (by decide)]
    decide
  · rw [(process_axis_length_classification
      (("AB123.4 V 001-NEDE").toList)).2.1 (by decide)]
    decide
  · exact (process_axis_length_classification ((":E01").toList)).2.2
      (by decide) (by decide)

/-- Claim C7 counterexample: feeding the 3-character wire code produced for
`"xz"` back into `process_axis` re-encodes it (length 3 takes the encoding
branch), yielding `"DDD"`, not the human-readable `"XZ"`. -/
theorem axis_literal_roundtrip_fails :
    (process_axis (("xz").toList)).2 = Except.ok (("EDE").toList) ∧
    (process_axis (("EDE").toList)).2 = Except.ok (("DDD").toList) ∧
    (process_axis (("EDE").toList)).2 ≠ Except.ok (("XZ").toList) := by
  decide

/-- Claim C7 (amended): the axis round trip holds only through a long-form
reply: encoding `"xz"` yields the wire code `"EDE"`, and decoding an
18-character reply carrying `"EDE"` at the axis offsets of its body yields
`"XZ"` (fixed X,Y,Z order, case-insensitive input). -/
theorem axis_roundtrip_via_long_reply :
    (process_axis (("xz").toList)).2 = Except.ok (("EDE").toList) ∧
    (process_axis (("AB123.4 V 001-NEDE").toList)).2 =
      Except.ok (("XZ").toList) := by
  decide

end FP4036

namespace FilenameWidget

theorem dropWhile_length_le (p : Char → Bool) (l : List Char) :
    (l.dropWhile p).length ≤ l.length :=
  (List.dropWhile_sublist p).length_le

theorem matchSpec_length {name spec r : List Char} {g : List Char × List Char}
    {rem : List Char} (h : matchSpec name spec r = some (g, rem)) :
    rem.length < r.length := by
  match r with
  | [] => simp [matchSpec] at h
  | e :: r3 =>
    simp only [matchSpec] at h
    by_cases he : e = '}'
    · rw [if_pos he] at h
      simp only [Option.some.injEq, Prod.mk.injEq] at h
      obtain ⟨-, hrem⟩ := h
      subst hrem
      simp
    · rw [if_neg he] at h
      exact absurd h (by simp)

theorem matchDelim_length {name r1 : List Char} {g : List Char × List Char}
    {rem : List Char} (h : matchDelim name r1 = some (g, rem)) :
    rem.length < r1.length := by
  match r1 with
  | [] => simp [matchDelim] at h
  | d :: r2 =>
    simp only [matchDelim] at h
    by_cases hd1 : d = '}'
    · rw [if_pos hd1] at h
      simp only [Option.some.injEq, Prod.mk.injEq] at h
      obtain ⟨-, hrem⟩ := h
      subst hrem
      simp
    · rw [if_neg hd1] at h
      by_cases hd2 : d = ':'
      · rw [if_pos hd2] at h
        have h1 := matchSpec_length h
        have h2 := dropWhile_length_le (fun c => !(isBrace c)) r2
        simp only [List.length_cons]
        omega
      · rw [if_neg hd2] at h
        exact absurd h (by simp)

theorem tryFullMatch_length {s : List Char} {g : List Char × List Char}
    {rem : List Char} (h : tryFullMatch s = some (g, rem)) :
    rem.length < s.length := by
  match s with
  | [] => simp [tryFullMatch] at h
  | c :: rest =>
    rw [tryFullMatch] at h
    by_cases hc : c = '{'
    · rw [if_pos hc, matchTail] at h
      have h1 := matchDelim_length h
      have h2 := dropWhile_length_le (fun c => !(nameStop c)) rest
      simp only [List.length_cons]
      omega
    · rw [if_neg hc] at h
      exact absurd h (by simp)

theorem fullSubF_fuel : ∀ (f1 f2 : Nat) (s : List Char),
    s.length ≤ f1 → s.length ≤ f2 → fullSubF f1 s = fullSubF f2 s := by
  intro f1
  induction f1 with
  | zero =>
    intro f2 s hs _
    rw [List.length_eq_zero.mp (Nat.le_zero.mp hs)]
    cases f2 <;> rfl
  | succ f1 ih =>
    intro f2 s hs1 hs2
    match s with
    | [] => cases f2 <;> rfl
    | c :: rest =>
      match f2, hs2 with
      | f2 + 1, hs2 =>
        simp only [List.length_cons, Nat.add_le_add_iff_right] at hs1 hs2
        cases hm : tryFullMatch (c :: rest) with
        | some pr =>
          obtain ⟨g, rem⟩ := pr
          have hr : rem.length ≤ rest.length := by
            have := tryFullMatch_length hm
            simp only [List.length_cons] at this
            omega
          simp only [fullSubF, hm]
          rw [ih f2 rem (le_trans hr hs1) (le_trans hr hs2)]
        | none =>
          simp only [fullSubF, hm]
          rw [ih f2 rest hs1 hs2]

theorem fullFindAllF_fuel : ∀ (f1 f2 : Nat) (s : List Char),
    s.length ≤ f1 → s.length ≤ f2 → fullFindAllF f1 s = fullFindAllF f2 s := by
  intro f1
  induction f1 with
  | zero =>
    intro f2 s hs _
    rw [List.length_eq_zero.mp (Nat.le_zero.mp hs)]
    cases f2 <;> rfl
  | succ f1 ih =>
    intro f2 s hs1 hs2
    match s with
    | [] => cases f2 <;> rfl
    | c :: rest =>
      match f2, hs2 with
      | f2 + 1, hs2 =>
        simp only [List.length_cons, Nat.add_le_add_iff_right] at hs1 hs2
        cases hm : tryFullMatch (c :: rest) with
        | some pr =>
          obtain ⟨g, rem⟩ := pr
          have hr : rem.length ≤ rest.length := by
            have := tryFullMatch_length hm
            simp only [List.length_cons] at this
            omega
          simp only [fullFindAllF, hm]
          rw [ih f2 rem (le_trans hr hs1) (le_trans hr hs2)]
        | none =>
          simp only [fullFindAllF, hm]
          rw [ih f2 rest hs1 hs2]

theorem fullSub_nil : fullSub [] = [] := rfl

/-- One-step unfolding of the complete-placeholder substitution scan. -/
theorem fullSub_cons (c : Char) (rest : List Char) :
    fullSub (c :: rest) = (match tryFullMatch (c :: rest) with
      | some pr => repFull ++ fullSub pr.2
      | none => c :: fullSub rest) := by
  show fullSubF (rest.length + 1) (c :: rest) = _
  cases hm : tryFullMatch (c :: rest) with
  | some pr =>
    obtain ⟨g, rem⟩ := pr
    have hr : rem.length ≤ rest.length := by
      have := tryFullMatch_length hm
      simp only [List.length_cons] at this
      omega
    simp only [fullSubF, hm]
    rw [fullSubF_fuel rest.length rem.length rem hr le_rfl]
    rfl
  | none =>
    simp only [fullSubF, hm]
    rfl

theorem fullFindAll_nil : fullFindAll [] = [] := rfl

/-- One-step unfolding of the complete-placeholder `findall` scan. -/
theorem fullFindAll_cons (c : Char) (rest : List Char) :
    fullFindAll (c :: rest) = (match tryFullMatch (c :: rest) with
      | some pr => pr.1 :: fullFindAll pr.2
      | none => fullFindAll rest) := by
  show fullFindAllF (rest.length + 1) (c :: rest) = _
  cases hm : tryFullMatch (c :: rest) with
  | some pr =>
    obtain ⟨g, rem⟩ := pr
    have hr : rem.length ≤ rest.length := by
      have := tryFullMatch_length hm
      simp only [List.length_cons] at this
      omega
    simp only [fullFindAllF, hm]
    rw [fullFindAllF_fuel rest.length rem.length rem hr le_rfl]
    rfl
  | none =>
    simp only [fullFindAllF, hm]
    rfl

/-- Induction along the structure of the left-to-right match scan: a
property holds of every string if it holds of the empty string, is preserved
from the remainder across a successful head match, and is preserved from the
tail when the head does not start a match. -/
theorem scan_induction (P : List Char → Prop) (h0 : P [])
    (hsome : ∀ c rest g rem, tryFullMatch (c :: rest) = some (g, rem) →
      P rem → P (c :: rest))
    (hnone : ∀ c rest, tryFullMatch (c :: rest) = none → P rest → P (c :: rest)) :
    ∀ s, P s := by
  have key : ∀ (n : Nat) (s : List Char), s.length ≤ n → P s := by
    intro n
    induction n with
    | zero =>
      intro s hs
      rw [List.length_eq_zero.mp (Nat.le_zero.mp hs)]
      exact h0
    | succ n ih =>
      intro s hs
      match s with
      | [] => exact h0
      | c :: rest =>
        simp only [List.length_cons, Nat.add_le_add_iff_right] at hs
        cases hm : tryFullMatch (c :: rest) with
        | some pr =>
          obtain ⟨g, rem⟩ := pr
          have hr : rem.length ≤ rest.length := by
            have := tryFullMatch_length hm
            simp only [List.length_cons] at this
            omega
          exact hsome c rest g rem hm (ih rem (le_trans hr hs))
        | none => exact hnone c rest hm (ih rest hs)
  intro s
  exact key s.length s le_rfl

theorem dropWhile_head_false {p : Char → Bool} :
    ∀ {l : List Char} {d : Char} {r : List Char},
      l.dropWhile p = d :: r → p d = false := by
  intro l
  induction l with
  | nil => intro d r h; simp [List.dropWhile] at h
  | cons x u ih =>
    intro d r h
    by_cases hx : p x
    · rw [List.dropWhile_cons_of_pos hx] at h
      exact ih h
    · rw [List.dropWhile_cons_of_neg hx] at h
      cases h
      exact Bool.eq_false_iff.mpr hx

theorem span_append_stop {p : Char → Bool} :
    ∀ {u : List Char} {d : Char} {r : List Char}, u.dropWhile p = d :: r →
      ∀ v : List Char, (u ++ v).takeWhile p = u.takeWhile p ∧
        (u ++ v).dropWhile p = d :: (r ++ v) := by
  intro u
  induction u with
  | nil => intro d r h; simp [List.dropWhile] at h
  | cons x u ih =>
    intro d r h v
    by_cases hx : p x
    · rw [List.dropWhile_cons_of_pos hx] at h
      obtain ⟨h1, h2⟩ := ih h v
      refine ⟨?_, ?_⟩
      · rw [List.cons_append, List.takeWhile_cons_of_pos hx,
          List.takeWhile_cons_of_pos hx, h1]
      · rw [List.cons_append, List.dropWhile_cons_of_pos hx, h2]
    · rw [List.dropWhile_cons_of_neg hx] at h
      cases h
      refine ⟨?_, ?_⟩
      · rw [List.cons_append, List.takeWhile_cons_of_neg hx,
          List.takeWhile_cons_of_neg hx]
      · rw [List.cons_append, List.dropWhile_cons_of_neg hx]

theorem span_append_all {p : Char → Bool} :
    ∀ {u : List Char}, u.dropWhile p = [] →
      ∀ v : List Char, (u ++ v).takeWhile p = u ++ v.takeWhile p ∧
        (u ++ v).dropWhile p = v.dropWhile p := by
  intro u
  induction u with
  | nil => intro _ v; exact ⟨rfl, rfl⟩
  | cons x u ih =>
    intro h v
    by_cases hx : p x
    · rw [List.dropWhile_cons_of_pos hx] at h
      obtain ⟨h1, h2⟩ := ih h v
      refine ⟨?_, ?_⟩
      · rw [List.cons_append, List.takeWhile_cons_of_pos hx, h1, List.cons_append]
      · rw [List.cons_append, List.dropWhile_cons_of_pos hx, h2]
    · rw [List.dropWhile_cons_of_neg hx] at h
      simp at h

theorem tryFullMatch_none_head {c : Char} (hc : ¬ c = '{') (rest : List Char) :
    tryFullMatch (c :: rest) = none := by
  rw [tryFullMatch]
  exact if_neg hc

theorem tryFullMatch_cons_open (rest : List Char) :
    tryFullMatch ('{' :: rest) = matchTail rest := by
  rw [tryFullMatch]
  exact if_pos rfl

/-- Appending a suffix that begins with an opening brace does not change
whether (or how) the complete-placeholder pattern matches at the head: no
match can absorb the appended opening brace. -/
theorem tryFullMatch_append_open (c : Char) (rest t : List Char) :
    tryFullMatch ((c :: rest) ++ '{' :: t) =
      (match tryFullMatch (c :: rest) with
        | some pr => some (pr.1, pr.2 ++ '{' :: t)
        | none => none) := by
  rw [List.cons_append]
  by_cases hc : c = '{'
  · subst hc
    rw [tryFullMatch_cons_open, tryFullMatch_cons_open, matchTail, matchTail]
    cases hb : rest.dropWhile (fun c => !(nameStop c)) with
    | nil =>
      obtain ⟨-, hd⟩ := span_append_all hb ('{' :: t)
      rw [hd, List.dropWhile_cons_of_neg (by decide)]
      simp only [matchDelim]
      rw [if_neg (by decide), if_neg (by decide)]
    | cons d r2 =>
      obtain ⟨ht, hd⟩ := span_append_stop hb ('{' :: t)
      rw [hd, ht]
      simp only [matchDelim]
      by_cases hd1 : d = '}'
      · rw [if_pos hd1, if_pos hd1]
      · rw [if_neg hd1, if_neg hd1]
        by_cases hd2 : d = ':'
        · rw [if_pos hd2, if_pos hd2]
          cases hb2 : r2.dropWhile (fun c => !(isBrace c)) with
          | nil =>
            obtain ⟨-, hd'⟩ := span_append_all hb2 ('{' :: t)
            rw [hd', List.dropWhile_cons_of_neg (by decide)]
            simp only [matchSpec]
            rw [if_neg (by decide)]
          | cons e r3 =>
            obtain ⟨ht', hd'⟩ := span_append_stop hb2 ('{' :: t)
            rw [hd', ht']
            simp only [matchSpec]
            by_cases he : e = '}'
            · rw [if_pos he, if_pos he]
            · rw [if_neg he, if_neg he]
        · rw [if_neg hd2, if_neg hd2]
  · rw [tryFullMatch_none_head hc, tryFullMatch_none_head hc]

/-- The substitution scan distributes over a suffix that begins with an
opening brace. -/
theorem fullSub_append_open (t : List Char) :
    ∀ a : List Char, fullSub (a ++ '{' :: t) = fullSub a ++ fullSub ('{' :: t) := by
  refine scan_induction _ rfl ?_ ?_
  · intro c rest g rem hm ih
    have hM := tryFullMatch_append_open c rest t
    rw [hm] at hM
    rw [List.cons_append] at hM
    have h1 : fullSub (c :: (rest ++ '{' :: t)) = repFull ++ fullSub (rem ++ '{' :: t) := by
      rw [fullSub_cons, hM]
    have h2 : fullSub (c :: rest) = repFull ++ fullSub rem := by
      rw [fullSub_cons, hm]
    rw [List.cons_append, h1, h2, ih, List.append_assoc]
  · intro c rest hm ih
    have hM := tryFullMatch_append_open c rest t
    rw [hm] at hM
    rw [List.cons_append] at hM
    have h1 : fullSub (c :: (rest ++ '{' :: t)) = c :: fullSub (rest ++ '{' :: t) := by
      rw [fullSub_cons, hM]
    have h2 : fullSub (c :: rest) = c :: fullSub rest := by
      rw [fullSub_cons, hm]
    rw [List.cons_append, h1, h2, ih, List.cons_append]

theorem noBraces_cons {c : Char} {l : List Char} :
    noBraces (c :: l) = (!(isBrace c) && noBraces l) := by
  simp [noBraces]

theorem not_open_of_noBraces {l : List Char} (h : noBraces l = true) :
    ∀ c ∈ l, ¬ c = '{' := by
  intro c hc hceq
  subst hceq
  have := List.all_eq_true.mp h _ hc
  simp [isBrace] at this

theorem not_close_of_noBraces {l : List Char} (h : noBraces l = true) :
    ∀ c ∈ l, ¬ c = '}' := by
  intro c hc hceq
  subst hceq
  have := List.all_eq_true.mp h _ hc
  simp [isBrace] at this

/-- A string with no braces contains no placeholder match at all. -/
theorem fullSub_noBraces {s : List Char} (h : noBraces s = true) : fullSub s = s := by
  induction s with
  | nil => rfl
  | cons c rest ih =>
    rw [noBraces_cons, Bool.and_eq_true] at h
    have hc : ¬ c = '{' := by
      intro hceq
      subst hceq
      simp [isBrace] at h
    rw [fullSub_cons, tryFullMatch_none_head hc, ih h.2]

/-- An opening brace followed by brace-free text never completes a match. -/
theorem tryFullMatch_open_noBraces {b : List Char} (h : noBraces b = true) :
    tryFullMatch ('{' :: b) = none := by
  rw [tryFullMatch_cons_open, matchTail]
  cases hb : b.dropWhile (fun c => !(nameStop c)) with
  | nil => rfl
  | cons d r2 =>
    have hmem : d ∈ b := (List.dropWhile_suffix _).subset (hb ▸ List.mem_cons_self d r2)
    have hstop : nameStop d = true := by
      have := dropWhile_head_false hb
      simpa using this
    have hbr : isBrace d = false := by
      have := List.all_eq_true.mp h _ hmem
      simpa using this
    have hd2 : d = ':' := by
      simp only [nameStop, Bool.or_eq_true, decide_eq_true_eq, or_assoc] at hstop
      simp only [isBrace, Bool.or_eq_false_iff, decide_eq_false_iff_not] at hbr
      rcases hstop with h1 | h1 | h1
      · exact absurd h1 hbr.1
      · exact absurd h1 hbr.2
      · exact h1
    subst hd2
    simp only [matchDelim]
    rw [if_pos trivial]
    have hr2 : r2.dropWhile (fun c => !(isBrace c)) = [] := by
      rw [List.dropWhile_eq_nil_iff]
      intro x hx
      have hxb : x ∈ b := (List.dropWhile_suffix _).subset (hb ▸ List.mem_cons_of_mem _ hx)
      have := List.all_eq_true.mp h _ hxb
      simpa using this
    rw [hr2]
    rfl

theorem fullSub_open_noBraces {b : List Char} (h : noBraces b = true) :
    fullSub ('{' :: b) = '{' :: b := by
  rw [fullSub_cons, tryFullMatch_open_noBraces h, fullSub_noBraces h]

/-- Closing a brace-free half token with a closing brace produces a match
consuming the whole string. -/
theorem tryFullMatch_closed {b : List Char} (h : noBraces b = true) :
    ∃ g, tryFullMatch ('{' :: (b ++ ['}'])) = some (g, []) := by
  rw [tryFullMatch_cons_open, matchTail]
  rcases hb : b.dropWhile (fun c => !(nameStop c)) with - | ⟨d, r2⟩
  · obtain ⟨-, hd⟩ := span_append_all hb ['}']
    rw [hd, List.dropWhile_cons_of_neg (by decide)]
    refine ⟨(List.takeWhile (fun c => !(nameStop c)) (b ++ ['}']), []), ?_⟩
    simp [matchDelim]
  · have hmem : d ∈ b := (List.dropWhile_suffix _).subset (hb ▸ List.mem_cons_self d r2)
    have hstop : nameStop d = true := by
      have := dropWhile_head_false hb
      simpa using this
    have hbr : isBrace d = false := by
      have := List.all_eq_true.mp h _ hmem
      simpa using this
    have hd2 : d = ':' := by
      simp only [nameStop, Bool.or_eq_true, decide_eq_true_eq, or_assoc] at hstop
      simp only [isBrace, Bool.or_eq_false_iff, decide_eq_false_iff_not] at hbr
      rcases hstop with h1 | h1 | h1
      · exact absurd h1 hbr.1
      · exact absurd h1 hbr.2
      · exact h1
    subst hd2
    obtain ⟨-, hd⟩ := span_append_stop hb ['}']
    rw [hd]
    simp only [matchDelim]
    rw [if_pos trivial]
    have hr2 : r2.dropWhile (fun c => !(isBrace c)) = [] := by
      rw [List.dropWhile_eq_nil_iff]
      intro x hx
      have hxb : x ∈ b := (List.dropWhile_suffix _).subset (hb ▸ List.mem_cons_of_mem _ hx)
      have := List.all_eq_true.mp h _ hxb
      simpa using this
    obtain ⟨-, hd'⟩ := span_append_all hr2 ['}']
    rw [hd', List.dropWhile_cons_of_neg (by decide)]
    refine ⟨(List.takeWhile (fun c => !(nameStop c)) (b ++ ['}']),
      ':' :: List.takeWhile (fun c => !(isBrace c)) (r2 ++ ['}'])), ?_⟩
    simp [matchSpec]

theorem fullSub_closed {b : List Char} (h : noBraces b = true) :
    fullSub ('{' :: (b ++ ['}'])) = repFull := by
  obtain ⟨g, hg⟩ := tryFullMatch_closed h
  rw [fullSub_cons, hg]
  simp [fullSub_nil]

theorem halfSub_no_open {l : List Char} (h : ∀ c ∈ l, ¬ c = '{') :
    halfSub l = l := by
  induction l with
  | nil => rfl
  | cons c rest ih =>
    rw [halfSub]
    rw [if_neg]
    · rw [ih (fun x hx => h x (List.mem_cons_of_mem _ hx))]
    · simp only [Bool.and_eq_true, decide_eq_true_eq, not_and]
      intro hc
      exact absurd hc (h c (List.mem_cons_self c rest))

theorem halfSub_append_no_open {u : List Char} (h : ∀ c ∈ u, ¬ c = '{')
    (v : List Char) : halfSub (u ++ v) = u ++ halfSub v := by
  induction u with
  | nil => rfl
  | cons c rest ih =>
    rw [List.cons_append, halfSub]
    rw [if_neg]
    · rw [ih (fun x hx => h x (List.mem_cons_of_mem _ hx))]
      rfl
    · simp only [Bool.and_eq_true, decide_eq_true_eq, not_and]
      intro hc
      exact absurd hc (h c (List.mem_cons_self c rest))

/-- The half-token substitution on a string ending in an opening brace with
a brace-free tail: everything from that brace on is replaced. -/
theorem halfSub_open {b : List Char} (hb : noBraces b = true) :
    ∀ A : List Char, halfSub (A ++ '{' :: b) = A ++ repHalf := by
  intro A
  induction A with
  | nil =>
    rw [List.nil_append, halfSub, if_pos]
    · rfl
    · simp [hb]
  | cons c A' ih =>
    rw [List.cons_append, halfSub, if_neg]
    · rw [ih, List.cons_append]
    · simp only [Bool.and_eq_true, decide_eq_true_eq, not_and]
      intro _ hcontra
      have := List.all_eq_true.mp hcontra '{' (by simp)
      simp [isBrace] at this

theorem hasHalf_append_rbrace (s : List Char) : hasHalf (s ++ ['}']) = false := by
  induction s with
  | nil => rfl
  | cons c rest ih =>
    rw [List.cons_append, hasHalf, ih]
    rw [Bool.or_false]
    rw [noBraces]
    simp [isBrace]

theorem hasHalf_split {s : List Char} (h : hasHalf s = true) :
    ∃ a b, s = a ++ '{' :: b ∧ noBraces b = true := by
  induction s with
  | nil => simp [hasHalf] at h
  | cons c rest ih =>
    rw [hasHalf, Bool.or_eq_true] at h
    rcases h with h | h
    · rw [Bool.and_eq_true, decide_eq_true_eq] at h
      exact ⟨[], rest, by rw [h.1]; rfl, h.2⟩
    · obtain ⟨a, b, heq, hb⟩ := ih h
      exact ⟨c :: a, b, by rw [heq, List.cons_append], hb⟩

theorem valid_filename_append (u v : List Char) :
    valid_filename (u ++ v) = (valid_filename u && valid_filename v) := by
  simp [valid_filename]

theorem isBrace_forbidden {c : Char} (h : isBrace c = true) :
    forbiddenChar c = true := by
  simp only [isBrace, Bool.or_eq_true, decide_eq_true_eq] at h
  rcases h with h | h <;> subst h <;> decide

theorem noBraces_of_valid {l : List Char} (h : valid_filename l = true) :
    noBraces l = true := by
  rw [noBraces, List.all_eq_true]
  intro c hc
  have hf := List.all_eq_true.mp h _ hc
  simp only [Bool.not_eq_true'] at hf ⊢
  cases hbr : isBrace c with
  | false => rfl
  | true => exact absurd hf (by rw [isBrace_forbidden hbr]; simp)

theorem valid_filename_false_of_mem {l : List Char} {c : Char} (hc : c ∈ l)
    (hf : forbiddenChar c = true) : valid_filename l = false := by
  rw [valid_filename]
  cases hall : l.all (fun c => !(forbiddenChar c)) with
  | false => rfl
  | true =>
    have := List.all_eq_true.mp hall _ hc
    rw [hf] at this
    cases this

theorem repFull_no_open : ∀ c ∈ repFull, ¬ c = '{' := by
  intro c hc hceq
  subst hceq
  revert hc
  decide

theorem repHalf_no_mem_slash : ¬ '/' ∈ repHalf := by decide

theorem fullOutsideF_fuel : ∀ (f1 f2 : Nat) (s : List Char),
    s.length ≤ f1 → s.length ≤ f2 → fullOutsideF f1 s = fullOutsideF f2 s := by
  intro f1
  induction f1 with
  | zero =>
    intro f2 s hs _
    rw [List.length_eq_zero.mp (Nat.le_zero.mp hs)]
    cases f2 <;> rfl
  | succ f1 ih =>
    intro f2 s hs1 hs2
    match s with
    | [] => cases f2 <;> rfl
    | c :: rest =>
      match f2, hs2 with
      | f2 + 1, hs2 =>
        simp only [List.length_cons, Nat.add_le_add_iff_right] at hs1 hs2
        cases hm : tryFullMatch (c :: rest) with
        | some pr =>
          obtain ⟨g, rem⟩ := pr
          have hr : rem.length ≤ rest.length := by
            have := tryFullMatch_length hm
            simp only [List.length_cons] at this
            omega
          simp only [fullOutsideF, hm]
          exact ih f2 rem (le_trans hr hs1) (le_trans hr hs2)
        | none =>
          simp only [fullOutsideF, hm]
          rw [ih f2 rest hs1 hs2]

theorem fullOutside_nil : fullOutside [] = [] := rfl

/-- One-step unfolding of the outside-characters scan. -/
theorem fullOutside_cons (c : Char) (rest : List Char) :
    fullOutside (c :: rest) = (match tryFullMatch (c :: rest) with
      | some pr => fullOutside pr.2
      | none => c :: fullOutside rest) := by
  show fullOutsideF (rest.length + 1) (c :: rest) = _
  cases hm : tryFullMatch (c :: rest) with
  | some pr =>
    obtain ⟨g, rem⟩ := pr
    have hr : rem.length ≤ rest.length := by
      have := tryFullMatch_length hm
      simp only [List.length_cons] at this
      omega
    simp only [fullOutsideF, hm]
    rw [fullOutsideF_fuel rest.length rem.length rem hr le_rfl]
    rfl
  | none =>
    simp only [fullOutsideF, hm]
    rfl

/-- The braces of the substituted string and of the outside-characters
string coincide: replacement markers contain no brace. -/
theorem noBraces_fullSub_eq : ∀ s, noBraces (fullSub s) = noBraces (fullOutside s) := by
  refine scan_induction _ rfl ?_ ?_
  · intro c0 rest g rem hm ih
    have h1 : fullSub (c0 :: rest) = repFull ++ fullSub rem := by
      rw [fullSub_cons, hm]
    have h2 : fullOutside (c0 :: rest) = fullOutside rem := by
      rw [fullOutside_cons, hm]
    rw [h1, h2]
    rw [noBraces, List.all_append]
    rw [show (repFull.all fun c => !(isBrace c)) = true from by decide]
    rw [Bool.true_and]
    exact ih
  · intro c0 rest hm ih
    have h1 : fullSub (c0 :: rest) = c0 :: fullSub rest := by
      rw [fullSub_cons, hm]
    have h2 : fullOutside (c0 :: rest) = c0 :: fullOutside rest := by
      rw [fullOutside_cons, hm]
    rw [h1, h2, noBraces_cons, noBraces_cons, ih]

/-- A character that is not part of a replacement marker survives the whole
substitution pipeline exactly when it lies outside every placeholder token:
the test string and the outside-characters string agree on it. -/
theorem mem_test_iff (c : Char) (hf : ¬ c ∈ repFull) (hh : ¬ c ∈ repHalf) :
    ∀ s, (c ∈ halfSub (fullSub s) ↔ c ∈ cutHalf (fullOutside s)) := by
  refine scan_induction _ Iff.rfl ?_ ?_
  · intro c0 rest g rem hm ih
    have h1 : fullSub (c0 :: rest) = repFull ++ fullSub rem := by
      rw [fullSub_cons, hm]
    have h2 : fullOutside (c0 :: rest) = fullOutside rem := by
      rw [fullOutside_cons, hm]
    rw [h1, h2, halfSub_append_no_open repFull_no_open, List.mem_append]
    constructor
    · rintro (hc | hc)
      · exact absurd hc hf
      · exact ih.mp hc
    · intro hc
      exact Or.inr (ih.mpr hc)
  · intro c0 rest hm ih
    have h1 : fullSub (c0 :: rest) = c0 :: fullSub rest := by
      rw [fullSub_cons, hm]
    have h2 : fullOutside (c0 :: rest) = c0 :: fullOutside rest := by
      rw [fullOutside_cons, hm]
    rw [h1, h2]
    simp only [halfSub, cutHalf]
    rw [noBraces_fullSub_eq rest]
    by_cases hcond : (c0 = '{' && noBraces (fullOutside rest)) = true
    · rw [if_pos hcond, if_pos hcond]
      constructor
      · intro hc
        exact absurd hc hh
      · intro hc
        exact absurd hc (List.not_mem_nil c)
    · rw [if_neg hcond, if_neg hcond]
      rw [List.mem_cons, List.mem_cons]
      exact or_congr Iff.rfl ih

/-- Claim C4: the validator returns exactly one of the three states:
Invalid exactly when the placeholder-substituted test string still contains
a filesystem-unsafe character, Intermediate exactly when the test string is
safe but the input ends in an unterminated half token, Acceptable exactly
when it is safe and fully well-formed; in particular a slash among the
characters lying outside every placeholder token forces Invalid, whatever
the placeholders contain, while a slash inside a placeholder does not. -/
theorem validate_three_state_classification :
    (∀ input : List Char,
      (validateState input = QState.Invalid ↔
        valid_filename (halfSub (fullSub input)) = false) ∧
      (validateState input = QState.Intermediate ↔
        valid_filename (halfSub (fullSub input)) = true ∧ hasHalf input = true) ∧
      (validateState input = QState.Acceptable ↔
        valid_filename (halfSub (fullSub input)) = true ∧ hasHalf input = false)) ∧
    (∀ input : List Char, '/' ∈ cutHalf (fullOutside input) →
      validateState input = QState.Invalid) ∧
    validateState (("data_\x7bdate\x7d/x").toList) = QState.Invalid ∧
    validateState (("\x7ba/b\x7d").toList) = QState.Acceptable := by
  refine ⟨?_, ?_, by decide, by decide⟩
  · intro input
    simp only [validateState]
    cases hv : valid_filename (halfSub (fullSub input)) <;>
      cases hh : hasHalf input <;>
        simp
  · intro input h
    have hmem : '/' ∈ halfSub (fullSub input) :=
      (mem_test_iff '/' (by decide) repHalf_no_mem_slash input).mpr h
    have hbad : valid_filename (halfSub (fullSub input)) = false :=
      valid_filename_false_of_mem hmem (by decide)
    simp only [validateState]
    rw [if_pos hbad]

theorem validate_three_state_classification_witness :
    '/' ∈ cutHalf (fullOutside (("data_\x7bdate\x7d/x").toList)) ∧
    validateState (("data_\x7bdate\x7d/x").toList) = QState.Invalid :=
  ⟨by decide, validate_three_state_classification.2.1 _ (by decide)⟩

/-- Claim C8: the names the validator warns about are exactly the names of
the complete placeholder tokens absent from the whitelist, delivered through
the separate warning channel, not through the state; concretely the input
`data_` followed by the token `unknown` with whitelist `date`, `time` is
Acceptable with a warning naming exactly `unknown`. -/
theorem validate_warning_names :
    (∀ (placeholders : List (List Char)) (input : List Char) (pos : Nat)
      (n : List Char),
      n ∈ warnedNames (validate placeholders input pos) ↔
        ∃ sp, (n, sp) ∈ fullFindAll input ∧ placeholders.contains n = false) ∧
    validate [("date").toList, ("time").toList] (("data_\x7bunknown\x7d").toList) 3 =
      ⟨QState.Acceptable, ("data_\x7bunknown\x7d").toList, 3,
        some [(("unknown").toList, [])]⟩ := by
  constructor
  · intro placeholders input pos n
    have hw : warnedNames (validate placeholders input pos) =
        ((fullFindAll input).filter
          (fun p => !(placeholders.contains p.1))).map Prod.fst := by
      simp only [validate, warnedNames]
      by_cases hie : ((fullFindAll input).filter
          (fun p => !(placeholders.contains p.1))).isEmpty = true
      · rw [if_pos hie, List.isEmpty_iff.mp hie]
        rfl
      · rw [if_neg hie]
    rw [hw]
    simp only [List.mem_map, List.mem_filter]
    constructor
    · rintro ⟨p, ⟨hp1, hp2⟩, hp3⟩
      obtain ⟨p1, p2⟩ := p
      cases hp3
      refine ⟨p2, hp1, ?_⟩
      simpa using hp2
    · rintro ⟨sp, hmem, hcon⟩
      exact ⟨(n, sp), ⟨hmem, by rw [Bool.not_eq_true']; exact hcon⟩, rfl⟩
  · decide

/-- Claim C9: an input that ends in an unterminated placeholder token is
fixed up by appending exactly one closing brace, and every input the
validator classifies Intermediate becomes Acceptable after fix-up. -/
theorem fixup_closes_intermediate_to_acceptable :
    (∀ s : List Char, hasHalf s = true → fixup s = s ++ ['}']) ∧
    (∀ s : List Char, validateState s = QState.Intermediate →
      validateState (fixup s) = QState.Acceptable) ∧
    fixup (("data_\x7bda").toList) = ("data_\x7bda\x7d").toList := by
  refine ⟨?_, ?_, by decide⟩
  · intro s h
    rw [fixup, if_pos h]
  · intro s hI
    simp only [validateState] at hI
    by_cases hv : valid_filename (halfSub (fullSub s)) = false
    case pos =>
      rw [if_pos hv] at hI
      exact absurd hI (by decide)
    rw [if_neg hv] at hI
    by_cases hh : hasHalf s = true
    case neg =>
      rw [if_neg hh] at hI
      exact absurd hI (by decide)
    rw [if_pos hh] at hI
    · have hvalid : valid_filename (halfSub (fullSub s)) = true := by
        cases hq : valid_filename (halfSub (fullSub s)) with
        | false => exact absurd hq hv
        | true => rfl
      obtain ⟨a, b, rfl, hb⟩ := hasHalf_split hh
      have hfs : fullSub (a ++ '{' :: b) = fullSub a ++ ('{' :: b) := by
        rw [fullSub_append_open, fullSub_open_noBraces hb]
      have htest : halfSub (fullSub (a ++ '{' :: b)) = fullSub a ++ repHalf := by
        rw [hfs, halfSub_open hb]
      rw [htest, valid_filename_append, Bool.and_eq_true] at hvalid
      have hva : valid_filename (fullSub a) = true := hvalid.1
      have hnb : noBraces (fullSub a) = true := noBraces_of_valid hva
      rw [fixup, if_pos hh]
      have hassoc : (a ++ '{' :: b) ++ ['}'] = a ++ '{' :: (b ++ ['}']) := by
        rw [List.append_assoc, List.cons_append]
      rw [hassoc]
      have hfs2 : fullSub (a ++ '{' :: (b ++ ['}'])) = fullSub a ++ repFull := by
        rw [fullSub_append_open, fullSub_closed hb]
      have hno : ∀ c ∈ fullSub a ++ repFull, ¬ c = '{' := by
        intro c hc
        rcases List.mem_append.mp hc with h1 | h1
        · exact not_open_of_noBraces hnb c h1
        · exact repFull_no_open c h1
      have hvt : valid_filename (fullSub a ++ repFull) = true := by
        rw [valid_filename_append, hva]
        decide
      have hhf : hasHalf (a ++ '{' :: (b ++ ['}'])) = false := by
        rw [← hassoc]
        exact hasHalf_append_rbrace (a ++ '{' :: b)
      simp only [validateState]
      rw [hfs2, halfSub_no_open hno]
      rw [if_neg (by rw [hvt]; simp), if_neg (by rw [hhf]; simp)]

theorem fixup_closes_intermediate_to_acceptable_witness :
    hasHalf (("data_\x7bda").toList) = true ∧
    fixup (("data_\x7bda").toList) = ("data_\x7bda").toList ++ ['}'] ∧
    validateState (("data_\x7bda").toList) = QState.Intermediate ∧
    validateState (fixup (("data_\x7bda").toList)) = QState.Acceptable := by
  refine ⟨by decide, ?_, by decide, ?_⟩
  · exact fixup_closes_intermediate_to_acceptable.1 _ (by decide)
  · exact fixup_closes_intermediate_to_acceptable.2.1 _ (by decide)

/-- Claim C10: validation never rewrites the text: the string and cursor
position returned by `FilenameValidator.validate` are the ones passed in,
for every whitelist, input and position; warnings travel only through the
separate warning channel. -/
theorem validate_returns_input_unchanged :
    ∀ (placeholders : List (List Char)) (input : List Char) (pos : Nat),
      (validate placeholders input pos).output = input ∧
      (validate placeholders input pos).outPos = pos :=
  fun _ _ _ => ⟨rfl, rfl⟩

end FilenameWidget

